import Mathlib

/-!
A shallow embedding of the `sjtu::linked_hashmap` container of
`src/linked_hashmap.hpp`: a hash table with separate chaining combined with
a sentinel-bounded doubly linked list that records insertion order.

Modelling choices:
* `Key` and `T` are instantiated at `Nat`; `std::hash<Key>` is an arbitrary
  function `hash : Nat → Nat` stored in the state, `std::equal_to<Key>` is
  equality on `Nat`.
* A heap node is identified by its key (live keys are unique); the order
  list `order` is the list of payloads `(key, value)` between the head and
  tail sentinels, in order, and each bucket chain is the list of payloads
  of its nodes in chain order.
* The rehash trigger `element_count + 1 > bucket_count * LOAD_FACTOR`
  (LOAD_FACTOR = 0.75) is written `4 * (element_count + 1) > 3 * bucket_count`;
  the two agree, and the double arithmetic of the source is exact, because
  `bucket_count` is always a multiple of 4 (16 doubled repeatedly).
* Member functions that `throw` in the source return `Except LhmErr`;
  member functions that cannot throw are total Lean functions.
* Pointer identity of containers (the `pos.map != this` test in `erase` and
  the `this != &other` test in `operator=`) is passed as an explicit
  Boolean, since the embedding has no addresses.
* Behaviour that is undefined in the source (dereferencing a sentinel,
  erasing a dangling same-owner node, retreating from the head sentinel) is
  given an arbitrary total value here; no theorem below relies on it.
-/

namespace LinkedHashmap

abbrev Key := Nat
abbrev Val := Nat

/-- The payload `value_type = pair<const Key, T>` of one node. -/
abbrev Entry := Key × Val

/-- The node an iterator designates: the head sentinel, the tail sentinel,
or the live node holding key `k`. -/
inductive INode where
  | head : INode
  | tail : INode
  | entry : Key → INode
deriving DecidableEq

/-- The two exception types thrown by the source. -/
inductive LhmErr where
  | index_out_of_bound : LhmErr
  | invalid_iterator : LhmErr
deriving DecidableEq

/-- Abstract state of a `linked_hashmap`. -/
structure LHM where
  /-- payloads of the nodes on the order list, head to tail -/
  order : List Entry
  /-- payloads of the nodes on each collision chain, front first -/
  buckets : List (List Entry)
  bucket_count : Nat
  element_count : Nat
  /-- the `Hash` function object (stateless in the source) -/
  hash : Key → Nat

/-- `INITIAL_BUCKET_COUNT = 16`. -/
def INITIAL_BUCKET_COUNT : Nat := 16

/-- The keys currently stored, in insertion order. -/
def keys (m : LHM) : List Key := m.order.map Prod.fst

/-- Default construction: empty sentinel-bounded list, 16 empty buckets. -/
def mkEmpty (hash : Key → Nat) : LHM :=
  { order := []
    buckets := List.replicate INITIAL_BUCKET_COUNT []
    bucket_count := INITIAL_BUCKET_COUNT
    element_count := 0
    hash := hash }

namespace LHM

/-- `get_bucket_index`: `hash_func(key) % bucket_count`. -/
def get_bucket_index (m : LHM) (key : Key) : Nat :=
  m.hash key % m.bucket_count

/-- The chain scan of `find_in_bucket`: walk `next_in_bucket` links testing
`equal_func(node->data->first, key)`; return the first matching node. -/
def find_in_chain (key : Key) : List Entry → Option Entry
  | [] => none
  | e :: rest => if e.1 = key then some e else find_in_chain key rest

/-- `find_in_bucket(key, bucket_idx)`. -/
def find_in_bucket (m : LHM) (key : Key) (idx : Nat) : Option Entry :=
  find_in_chain key (m.buckets.getD idx [])

/-- One loop iteration of `rehash`: push the node onto the front of chain
`hash(key) % new_bucket_count` (`node->next_in_bucket = new_buckets[new_idx];
new_buckets[new_idx] = node`). -/
def rehash_step (hash : Key → Nat) (new_bucket_count : Nat)
    (bs : List (List Entry)) (e : Entry) : List (List Entry) :=
  let new_idx := hash e.1 % new_bucket_count
  bs.set new_idx (e :: bs.getD new_idx [])

/-- `rehash(new_bucket_count)`: fresh empty chains, then walk the order
list from `head->next` to `tail` re-chaining every node; the order list
itself is untouched. -/
def rehash (m : LHM) (new_bucket_count : Nat) : LHM :=
  { m with
    buckets := m.order.foldl (rehash_step m.hash new_bucket_count)
      (List.replicate new_bucket_count [])
    bucket_count := new_bucket_count }

/-- `insert_to_order_list(node, tail)`: splice before the tail sentinel,
i.e. append at the end of the order list. -/
def insert_to_order_list (order : List Entry) (e : Entry) : List Entry :=
  order ++ [e]

/-- Unlinking a node, identified by its key, from a chain or from the
order list (`remove_from_order_list`, and the chain unlink loop of
`erase`): drop the first node whose key matches; if none matches, the
list is unchanged (the `if (*bucket_ptr)` guard of the source). -/
def remove_entry (key : Key) : List Entry → List Entry
  | [] => []
  | e :: rest => if e.1 = key then rest else e :: remove_entry key rest

/-- The happy path of `insert` once `m1` is the (possibly rehashed) state:
link the new node into its chain and at the order-list tail, bump
`element_count`. -/
def insert_new (m1 : LHM) (value : Entry) : LHM :=
  let idx1 := get_bucket_index m1 value.1
  { m1 with
    buckets := m1.buckets.set idx1 (value :: m1.buckets.getD idx1 [])
    order := insert_to_order_list m1.order value
    element_count := m1.element_count + 1 }

/-- `insert(value)`: if the key exists return its node and `false`;
otherwise rehash to double the buckets when
`element_count + 1 > bucket_count * LOAD_FACTOR`, recompute the bucket
index, then link the new node.  (The source recomputes `idx` only inside
the rehash branch; outside it `get_bucket_index` is unchanged, so the
unconditional recomputation below is the same value.) -/
def insert (m : LHM) (value : Entry) : (INode × Bool) × LHM :=
  match find_in_bucket m value.1 (get_bucket_index m value.1) with
  | some existing => ((INode.entry existing.1, false), m)
  | none =>
    let m1 := if 4 * (m.element_count + 1) > 3 * m.bucket_count
      then m.rehash (m.bucket_count * 2) else m
    ((INode.entry value.1, true), insert_new m1 value)

/-- The state produced by a successful `erase` of the live node holding
`key`: unlink from its chain, unlink from the order list, decrement
`element_count`. -/
def erase_result (m : LHM) (key : Key) : LHM :=
  let idx := get_bucket_index m key
  { m with
    buckets := m.buckets.set idx (remove_entry key (m.buckets.getD idx []))
    order := remove_entry key m.order
    element_count := m.element_count - 1 }

/-- `erase(pos)`: throw `invalid_iterator` when `pos.map != this` (the
Boolean `pos_owned`) or `pos.node` is the tail or head sentinel; otherwise
unlink the node.  (On a same-owner node that is not live the source is
undefined; here `erase_result` is still returned, and no theorem uses
that case.) -/
def erase (m : LHM) (pos_owned : Bool) (node : INode) : Except LhmErr LHM :=
  if pos_owned = false then .error .invalid_iterator
  else match node with
    | INode.head => .error .invalid_iterator
    | INode.tail => .error .invalid_iterator
    | INode.entry k => .ok (erase_result m k)

/-- `at(key)`: throw `index_out_of_bound` when absent, otherwise the
mapped value.  A pure observer: the source never mutates here. -/
def at_ (m : LHM) (key : Key) : Except LhmErr Val :=
  match find_in_bucket m key (get_bucket_index m key) with
  | none => .error .index_out_of_bound
  | some node => .ok node.2

/-- `count(key)`: 1 when the key is found, else 0. -/
def count (m : LHM) (key : Key) : Nat :=
  match find_in_bucket m key (get_bucket_index m key) with
  | some _ => 1
  | none => 0

/-- `find(key)`: the node, or the past-the-end position (tail). -/
def find (m : LHM) (key : Key) : INode :=
  match find_in_bucket m key (get_bucket_index m key) with
  | some node => INode.entry node.1
  | none => INode.tail

/-- `node->data->second` for a live node; `none` on a sentinel, where the
source dereference is undefined. -/
def deref_val (m : LHM) : INode → Option Val
  | INode.entry k => (m.order.find? (fun e => e.1 == k)).map Prod.snd
  | _ => none

/-- Mutable `operator[]`: the stored value when present; otherwise insert
a default-constructed value (`T()` is 0 here) and read it back through the
returned iterator. -/
def subscript (m : LHM) (key : Key) : Option Val × LHM :=
  match find_in_bucket m key (get_bucket_index m key) with
  | some node => (some node.2, m)
  | none =>
    let result := m.insert (key, 0)
    (deref_val result.2 result.1.1, result.2)

/-- Read-only `operator[]`: delegates to `at`. -/
def subscript_const (m : LHM) (key : Key) : Except LhmErr Val :=
  at_ m key

/-- `clear()`: delete every live node, reconnect `head <-> tail`, null all
`bucket_count` chain heads, zero `element_count`; buckets keep their
count. -/
def clear (m : LHM) : LHM :=
  { m with
    order := []
    buckets := List.replicate m.bucket_count []
    element_count := 0 }

/-- The freshly initialized target of `deep_copy`: `init_sentinels()` (an
empty order list), `init_buckets(other.bucket_count)`, `element_count = 0`.
(`Hash` is a stateless function object, so the target computes the same
hashes as the source.) -/
def deep_copy_init (other : LHM) : LHM :=
  { order := []
    buckets := List.replicate other.bucket_count []
    bucket_count := other.bucket_count
    element_count := 0
    hash := other.hash }

/-- `deep_copy(other)`: initialize a fresh target, then re-`insert` every
entry of `other` in order. -/
def deep_copy (other : LHM) : LHM :=
  other.order.foldl (fun acc e => (acc.insert e).2) (deep_copy_init other)

/-- `operator=`: when `this != &other` (aliased = false), `clear_all()`
and then `deep_copy(other)` — the cleared destination contributes nothing,
so the result is exactly `deep_copy other`; when the source and target
alias (aliased = true), do nothing. -/
def assign (aliased : Bool) (self other : LHM) : LHM :=
  if aliased then self else deep_copy other

/-- `head->next`: the first live node, or the tail sentinel when the map
is empty. -/
def head_next (m : LHM) : INode :=
  match m.order with
  | [] => INode.tail
  | e :: _ => INode.entry e.1

/-- `begin()`. -/
def begin (m : LHM) : INode := head_next m

/-- `end()`. -/
def endPos (_m : LHM) : INode := INode.tail

/-- `node->next` for the live node holding `key`: the following live node
or the tail sentinel.  (On a key not on the list — a dangling node — the
source is undefined; the value here is arbitrary.) -/
def next_of (key : Key) : List Entry → INode
  | [] => INode.tail
  | e :: rest =>
    if e.1 = key then
      match rest with
      | [] => INode.tail
      | e2 :: _ => INode.entry e2.1
    else next_of key rest

/-- `node->prev` for the live node holding `key`, accumulating the node
seen just before it. -/
def prev_of (key : Key) (seen : INode) : List Entry → INode
  | [] => INode.head
  | e :: rest => if e.1 = key then seen else prev_of key (INode.entry e.1) rest

/-- `node->next` as a function of the designated node. `tail->next` is
null in the source and unreachable (advance guards the tail), so the tail
case here is arbitrary. -/
def order_next (m : LHM) : INode → INode
  | INode.head => head_next m
  | INode.tail => INode.tail
  | INode.entry k => next_of k m.order

/-- `node->prev` as a function of the designated node. `head->prev` is
null in the source and unreachable through the iterator protocol, so the
head case here is arbitrary. -/
def order_prev (m : LHM) : INode → INode
  | INode.head => INode.head
  | INode.tail =>
    match m.order.getLast? with
    | none => INode.head
    | some e => INode.entry e.1
  | INode.entry k => prev_of k INode.head m.order

/-- `operator++`: throw `invalid_iterator` when `node == map->tail`,
otherwise move to `node->next`. -/
def iter_advance (m : LHM) (node : INode) : Except LhmErr INode :=
  if node = INode.tail then .error .invalid_iterator
  else .ok (order_next m node)

/-- `operator--`: throw `invalid_iterator` when `node == map->head->next`,
otherwise move to `node->prev`. -/
def iter_retreat (m : LHM) (node : INode) : Except LhmErr INode :=
  if node = head_next m then .error .invalid_iterator
  else .ok (order_prev m node)

end LHM

/-- The mutating and observing member calls a client can interleave.
`at`/`find`/`count` are observers (`const`-callable, no mutation in the
source), so as state transformers they are the identity. -/
inductive Op where
  | insertOp : Key → Val → Op
  | eraseOp : Bool → INode → Op
  | clearOp : Op
  | subscrOp : Key → Op
  | atOp : Key → Op
  | findOp : Key → Op
  | countOp : Key → Op
deriving DecidableEq

/-- Apply one operation; a thrown exception propagates to the caller
leaving the container as it was (`erase` throws before mutating). -/
def applyOp (m : LHM) : Op → LHM
  | Op.insertOp k v => (m.insert (k, v)).2
  | Op.eraseOp owned n =>
    match m.erase owned n with
    | .ok m1 => m1
    | .error _ => m
  | Op.clearOp => m.clear
  | Op.subscrOp k => (m.subscript k).2
  | Op.atOp _ => m
  | Op.findOp _ => m
  | Op.countOp _ => m

/-- Run a sequence of operations. -/
def runOps (m : LHM) (ops : List Op) : LHM :=
  ops.foldl applyOp m

/-- The operation sequences described by the order-preservation property:
insertions of pairwise-distinct fresh keys, interleaved with lookups via
`at`, `find`, `count`, or mutable `operator[]` on present keys.
`seen` is the list of keys inserted so far. -/
def goodSeq (seen : List Key) : List Op → Bool
  | [] => true
  | Op.insertOp k _ :: rest => !(decide (k ∈ seen)) && goodSeq (seen ++ [k]) rest
  | Op.subscrOp k :: rest => decide (k ∈ seen) && goodSeq seen rest
  | Op.atOp _ :: rest => goodSeq seen rest
  | Op.findOp _ :: rest => goodSeq seen rest
  | Op.countOp _ :: rest => goodSeq seen rest
  | Op.eraseOp _ _ :: _ => false
  | Op.clearOp :: _ => false

/-- The keys of the insertions of a sequence, in order. -/
def insertedKeys : List Op → List Key
  | [] => []
  | Op.insertOp k _ :: rest => k :: insertedKeys rest
  | _ :: rest => insertedKeys rest

/-- Well-formedness of a reachable container state:
the stored counts agree, live keys are unique, the load-factor invariant
holds, and each bucket chain holds exactly the live nodes whose key hashes
to it, each once. -/
structure WF (m : LHM) : Prop where
  two_le_bc : 2 ≤ m.bucket_count
  bucket_len : m.buckets.length = m.bucket_count
  count_eq : m.element_count = m.order.length
  keys_nodup : (keys m).Nodup
  load_inv : 4 * m.element_count ≤ 3 * m.bucket_count
  chain_mem : ∀ i e, e ∈ m.buckets.getD i [] ↔
    e ∈ m.order ∧ m.hash e.1 % m.bucket_count = i
  chain_nodup : ∀ i, ((m.buckets.getD i []).map Prod.fst).Nodup

/-! ### Concrete inputs used to instantiate the theorems -/

/-- A small interleaved sequence: three insertions of distinct keys with
lookups (including mutable `operator[]` on a present key) between them. -/
def c1ops : List Op :=
  [Op.insertOp 1 10, Op.atOp 1, Op.insertOp 2 20, Op.subscrOp 1,
   Op.countOp 5, Op.findOp 2, Op.insertOp 3 30]

/-- A two-entry map: keys 1 and 2 inserted into a fresh container. -/
def twoMap : LHM := (((mkEmpty id).insert (1, 10)).2.insert (2, 20)).2

/-- Twelve insertions: fills the fresh container exactly to the load
threshold (12 = 16 × 0.75) without triggering a rehash. -/
def twelveOps : List Op := (List.range 12).map (fun k => Op.insertOp k 0)

def twelveMap : LHM := runOps (mkEmpty id) twelveOps

/-- Thirteen insertions: the thirteenth triggers the rehash, growing the
bucket array from 16 to 32. -/
def grownOps : List Op := (List.range 13).map (fun k => Op.insertOp k 0)

def grownMap : LHM := runOps (mkEmpty id) grownOps

/-! ### List helpers -/

theorem getD_set_eq {α : Type} (l : List α) (i : Nat) (x d : α) (h : i < l.length) :
    (l.set i x).getD i d = x := by
  induction l generalizing i with
  | nil => simp at h
  | cons a t ih =>
    cases i with
    | zero => simp [List.set]
    | succ n =>
      simp only [List.set, List.getD_cons_succ]
      exact ih n (by simpa using h)

theorem getD_set_ne {α : Type} (l : List α) {i j : Nat} (x d : α) (h : i ≠ j) :
    (l.set i x).getD j d = l.getD j d := by
  induction l generalizing i j with
  | nil => rfl
  | cons a t ih =>
    cases i with
    | zero =>
      cases j with
      | zero => exact absurd rfl h
      | succ n => simp [List.set]
    | succ n =>
      cases j with
      | zero => simp [List.set]
      | succ p => simp only [List.set, List.getD_cons_succ]; exact ih (by omega)

theorem getD_replicate {α : Type} (n i : Nat) (d : α) :
    (List.replicate n d).getD i d = d := by
  induction n generalizing i with
  | zero => rfl
  | succ p ih =>
    cases i with
    | zero => simp [List.replicate]
    | succ j => simp [List.replicate, List.getD_cons_succ, ih]

theorem getD_of_le {α : Type} (l : List α) (i : Nat) (d : α) (h : l.length ≤ i) :
    l.getD i d = d := by
  induction l generalizing i with
  | nil => rfl
  | cons a t ih =>
    cases i with
    | zero => simp at h
    | succ j => simp only [List.getD_cons_succ]; exact ih j (by simpa using h)

/-! ### Chain-scan lemmas -/

theorem find_in_chain_eq_none {key : Key} {l : List Entry} :
    LHM.find_in_chain key l = none ↔ ∀ e ∈ l, e.1 ≠ key := by
  induction l with
  | nil => simp [LHM.find_in_chain]
  | cons e t ih =>
    by_cases h : e.1 = key
    · simp [LHM.find_in_chain, h]
    · simp [LHM.find_in_chain, h, ih]

theorem find_in_chain_eq_some {key : Key} {l : List Entry} {e : Entry}
    (h : LHM.find_in_chain key l = some e) : e ∈ l ∧ e.1 = key := by
  induction l with
  | nil => simp [LHM.find_in_chain] at h
  | cons a t ih =>
    by_cases ha : a.1 = key
    · simp only [LHM.find_in_chain, ha, if_pos] at h
      obtain rfl := Option.some.inj h
      exact ⟨List.mem_cons_self a t, ha⟩
    · simp only [LHM.find_in_chain, ha, if_false, ite_false] at h
      obtain ⟨hm, hk⟩ := ih h
      exact ⟨List.mem_cons_of_mem a hm, hk⟩

theorem find_in_chain_isSome {key : Key} {l : List Entry} {e : Entry}
    (he : e ∈ l) (hk : e.1 = key) : (LHM.find_in_chain key l).isSome := by
  induction l with
  | nil => simp at he
  | cons a t ih =>
    by_cases ha : a.1 = key
    · simp [LHM.find_in_chain, ha]
    · rcases List.mem_cons.1 he with rfl | hm
      · exact absurd hk ha
      · simpa [LHM.find_in_chain, ha] using ih hm

/-- Keys being unique determines a live node from its key. -/
theorem entry_key_inj {l : List Entry} (h : (l.map Prod.fst).Nodup)
    {e e' : Entry} (he : e ∈ l) (he' : e' ∈ l) (hk : e.1 = e'.1) : e = e' :=
  List.inj_on_of_nodup_map h he he' hk

/-! ### Unlink lemmas -/

theorem remove_entry_sublist (key : Key) (l : List Entry) :
    (LHM.remove_entry key l).Sublist l := by
  induction l with
  | nil => simp [LHM.remove_entry]
  | cons e t ih =>
    by_cases h : e.1 = key
    · simp only [LHM.remove_entry, h, if_pos]
      exact List.Sublist.cons e (List.Sublist.refl t)
    · simpa [LHM.remove_entry, h] using List.Sublist.cons₂ e ih

theorem remove_entry_of_not_mem {key : Key} {l : List Entry}
    (h : key ∉ l.map Prod.fst) : LHM.remove_entry key l = l := by
  induction l with
  | nil => rfl
  | cons e t ih =>
    simp only [List.map_cons, List.mem_cons, not_or] at h
    have he : ¬ e.1 = key := fun hk => h.1 hk.symm
    simp [LHM.remove_entry, he, ih h.2]

theorem length_remove_entry {key : Key} {l : List Entry}
    (h : key ∈ l.map Prod.fst) : (LHM.remove_entry key l).length + 1 = l.length := by
  induction l with
  | nil => simp at h
  | cons e t ih =>
    by_cases he : e.1 = key
    · simp [LHM.remove_entry, he]
    · have ht : key ∈ t.map Prod.fst := by
        rcases List.mem_map.1 h with ⟨a, ha, hak⟩
        rcases List.mem_cons.1 ha with rfl | hm
        · exact absurd hak he
        · exact List.mem_map.2 ⟨a, hm, hak⟩
      have := ih ht
      simp only [LHM.remove_entry, he, ite_false, List.length_cons]
      omega

theorem mem_remove_entry {key : Key} {l : List Entry}
    (hnd : (l.map Prod.fst).Nodup) {e : Entry} :
    e ∈ LHM.remove_entry key l ↔ e ∈ l ∧ e.1 ≠ key := by
  induction l with
  | nil => simp [LHM.remove_entry]
  | cons a t ih =>
    simp only [List.map_cons, List.nodup_cons] at hnd
    by_cases h : a.1 = key
    · simp only [LHM.remove_entry, h, if_pos, List.mem_cons]
      constructor
      · intro het
        refine ⟨Or.inr het, fun hek => hnd.1 ?_⟩
        exact List.mem_map.2 ⟨e, het, by rw [hek, h]⟩
      · rintro ⟨rfl | hm, hek⟩
        · exact absurd h hek
        · exact hm
    · simp only [LHM.remove_entry, h, ite_false, List.mem_cons, ih hnd.2]
      constructor
      · rintro (rfl | ⟨hm, hek⟩)
        · exact ⟨Or.inl rfl, h⟩
        · exact ⟨Or.inr hm, hek⟩
      · rintro ⟨rfl | hm, hek⟩
        · exact Or.inl rfl
        · exact Or.inr ⟨hm, hek⟩

theorem not_key_mem_remove_entry {key : Key} {l : List Entry}
    (hnd : (l.map Prod.fst).Nodup) :
    key ∉ (LHM.remove_entry key l).map Prod.fst := by
  intro hmem
  rcases List.mem_map.1 hmem with ⟨e, he, hek⟩
  exact ((mem_remove_entry hnd).1 he).2 hek

/-! ### Locating a key through the hash table, on well-formed states -/

theorem mem_keys {m : LHM} {k : Key} : k ∈ keys m ↔ ∃ e ∈ m.order, e.1 = k := by
  unfold keys
  exact List.mem_map

theorem find_in_bucket_eq_some {m : LHM} (hWF : WF m) {e : Entry}
    (he : e ∈ m.order) :
    m.find_in_bucket e.1 (m.get_bucket_index e.1) = some e := by
  have hchain : e ∈ m.buckets.getD (m.get_bucket_index e.1) [] :=
    (hWF.chain_mem _ e).2 ⟨he, rfl⟩
  have hsome := find_in_chain_isSome hchain rfl
  obtain ⟨e', he'⟩ := Option.isSome_iff_exists.1 hsome
  have hfc := find_in_chain_eq_some he'
  have he'o : e' ∈ m.order := ((hWF.chain_mem _ e').1 hfc.1).1
  have hee : e' = e := entry_key_inj hWF.keys_nodup he'o he hfc.2
  rw [LHM.find_in_bucket, he', hee]

theorem find_in_bucket_eq_none {m : LHM} (hWF : WF m) {k : Key}
    (hk : k ∉ keys m) :
    m.find_in_bucket k (m.get_bucket_index k) = none := by
  rw [LHM.find_in_bucket, find_in_chain_eq_none]
  intro e he hek
  have heo := ((hWF.chain_mem _ e).1 he).1
  exact hk (mem_keys.2 ⟨e, heo, hek⟩)

/-! ### `rehash` -/

theorem foldl_rehash_length (hash : Key → Nat) (nbc : Nat) (l : List Entry)
    (acc : List (List Entry)) :
    (l.foldl (LHM.rehash_step hash nbc) acc).length = acc.length := by
  induction l generalizing acc with
  | nil => rfl
  | cons e t ih =>
    rw [List.foldl_cons, ih]
    simp [LHM.rehash_step, List.length_set]

theorem foldl_rehash_getD (hash : Key → Nat) (nbc : Nat) (i : Nat) (hi : i < nbc) :
    ∀ (l : List Entry) (acc : List (List Entry)), acc.length = nbc →
    (l.foldl (LHM.rehash_step hash nbc) acc).getD i [] =
      (l.filter (fun e => hash e.1 % nbc == i)).reverse ++ acc.getD i [] := by
  intro l
  induction l with
  | nil => intro acc hacc; simp
  | cons e t ih =>
    intro acc hacc
    rw [List.foldl_cons, ih _ (by simp [LHM.rehash_step, List.length_set, hacc])]
    by_cases he : hash e.1 % nbc = i
    · have h1 : (LHM.rehash_step hash nbc acc e).getD i [] = e :: acc.getD i [] := by
        simp only [LHM.rehash_step, he]
        exact getD_set_eq _ _ _ _ (by rw [hacc]; exact hi)
      rw [h1, List.filter_cons, if_pos (by simpa using he), List.reverse_cons,
        List.append_assoc]
      rfl
    · have h1 : (LHM.rehash_step hash nbc acc e).getD i [] = acc.getD i [] := by
        simp only [LHM.rehash_step]
        exact getD_set_ne _ _ _ he
      rw [h1, List.filter_cons, if_neg (by simpa using he)]

theorem rehash_getD {m : LHM} {nbc : Nat} (hpos : 0 < nbc) (i : Nat) :
    (m.rehash nbc).buckets.getD i [] =
      (m.order.filter (fun e => m.hash e.1 % nbc == i)).reverse := by
  by_cases hi : i < nbc
  · have h := foldl_rehash_getD m.hash nbc i hi m.order (List.replicate nbc [])
      (by simp)
    simpa [LHM.rehash, getD_replicate] using h
  · have hlen : ((m.rehash nbc).buckets).length = nbc := by
      simp [LHM.rehash, foldl_rehash_length]
    rw [getD_of_le _ _ _ (by omega)]
    have : m.order.filter (fun e => m.hash e.1 % nbc == i) = [] := by
      rw [List.filter_eq_nil_iff]
      intro e _ hmod
      have hlt : m.hash e.1 % nbc < nbc := Nat.mod_lt _ hpos
      rw [beq_iff_eq] at hmod
      omega
    rw [this, List.reverse_nil]

theorem rehash_order (m : LHM) (nbc : Nat) : (m.rehash nbc).order = m.order := rfl

theorem rehash_bucket_count (m : LHM) (nbc : Nat) :
    (m.rehash nbc).bucket_count = nbc := rfl

theorem rehash_element_count (m : LHM) (nbc : Nat) :
    (m.rehash nbc).element_count = m.element_count := rfl

theorem rehash_hash (m : LHM) (nbc : Nat) : (m.rehash nbc).hash = m.hash := rfl

theorem rehash_wf {m : LHM} (hWF : WF m) {nbc : Nat}
    (hle : m.bucket_count ≤ nbc) : WF (m.rehash nbc) := by
  have hpos : 0 < nbc := by have := hWF.two_le_bc; omega
  refine ⟨?_, ?_, ?_, ?_, ?_, ?_, ?_⟩
  · rw [rehash_bucket_count]; exact le_trans hWF.two_le_bc hle
  · rw [rehash_bucket_count]
    simp [LHM.rehash, foldl_rehash_length]
  · rw [rehash_element_count, rehash_order]; exact hWF.count_eq
  · exact hWF.keys_nodup
  · rw [rehash_element_count, rehash_bucket_count]
    exact le_trans hWF.load_inv (by omega)
  · intro i e
    rw [rehash_getD hpos, rehash_order, rehash_bucket_count, rehash_hash]
    simp [List.mem_filter]
  · intro i
    rw [rehash_getD hpos]
    rw [List.map_reverse, List.nodup_reverse]
    exact List.Nodup.sublist (List.Sublist.map _ (List.filter_sublist _))
      hWF.keys_nodup

/-! ### `insert` -/

theorem insert_of_mem {m : LHM} (hWF : WF m) {e : Entry} (he : e ∈ m.order)
    (v : Val) : m.insert (e.1, v) = ((INode.entry e.1, false), m) := by
  have hf := find_in_bucket_eq_some hWF he
  simp [LHM.insert, hf]

theorem insert_new_order (m1 : LHM) (v : Entry) :
    (LHM.insert_new m1 v).order = m1.order ++ [v] := rfl

theorem insert_new_bucket_count (m1 : LHM) (v : Entry) :
    (LHM.insert_new m1 v).bucket_count = m1.bucket_count := rfl

theorem insert_new_element_count (m1 : LHM) (v : Entry) :
    (LHM.insert_new m1 v).element_count = m1.element_count + 1 := rfl

theorem insert_new_hash (m1 : LHM) (v : Entry) :
    (LHM.insert_new m1 v).hash = m1.hash := rfl

theorem insert_new_getD (m1 : LHM) (hlen : m1.buckets.length = m1.bucket_count)
    (hpos : 0 < m1.bucket_count) (v : Entry) (i : Nat) :
    (LHM.insert_new m1 v).buckets.getD i [] =
      if m1.get_bucket_index v.1 = i then v :: m1.buckets.getD i []
      else m1.buckets.getD i [] := by
  simp only [LHM.insert_new]
  by_cases h : m1.get_bucket_index v.1 = i
  · rw [if_pos h]
    subst h
    exact getD_set_eq _ _ _ _ (by rw [hlen]; exact Nat.mod_lt _ hpos)
  · rw [if_neg h]
    exact getD_set_ne _ _ _ h

theorem keys_insert_new (m1 : LHM) (k : Key) (v : Val) :
    keys (LHM.insert_new m1 (k, v)) = keys m1 ++ [k] := by
  simp [keys, LHM.insert_new, LHM.insert_to_order_list]

theorem insert_new_wf {m1 : LHM} (hWF : WF m1) {k : Key} {v : Val}
    (hk : k ∉ keys m1)
    (hload : 4 * (m1.element_count + 1) ≤ 3 * m1.bucket_count) :
    WF (LHM.insert_new m1 (k, v)) := by
  have hpos : 0 < m1.bucket_count := by have := hWF.two_le_bc; omega
  have hgbi : m1.get_bucket_index k = m1.hash k % m1.bucket_count := rfl
  refine ⟨hWF.two_le_bc, ?_, ?_, ?_, ?_, ?_, ?_⟩
  · simp [LHM.insert_new, List.length_set, hWF.bucket_len]
  · simp [LHM.insert_new, LHM.insert_to_order_list, hWF.count_eq]
  · rw [keys_insert_new, List.nodup_append]
    refine ⟨hWF.keys_nodup, List.nodup_singleton _, ?_⟩
    intro a ha hb
    rw [List.mem_singleton] at hb
    subst hb
    exact hk ha
  · simpa [LHM.insert_new, LHM.insert_to_order_list] using hload
  · intro i e
    rw [insert_new_getD _ hWF.bucket_len hpos]
    have hbc : (LHM.insert_new m1 (k, v)).bucket_count = m1.bucket_count := rfl
    have hh : (LHM.insert_new m1 (k, v)).hash = m1.hash := rfl
    have hor : (LHM.insert_new m1 (k, v)).order = m1.order ++ [(k, v)] := rfl
    rw [hbc, hh, hor]
    by_cases h : m1.get_bucket_index (k, v).1 = i
    · rw [if_pos h]
      have hki : m1.hash k % m1.bucket_count = i := h
      simp only [List.mem_cons, List.mem_append, List.not_mem_nil, or_false,
        hWF.chain_mem]
      constructor
      · rintro (rfl | ⟨ho, hi⟩)
        · exact ⟨Or.inr rfl, hki⟩
        · exact ⟨Or.inl ho, hi⟩
      · rintro ⟨ho | rfl, hi⟩
        · exact Or.inr ⟨ho, hi⟩
        · exact Or.inl rfl
    · rw [if_neg h]
      simp only [List.mem_append, List.mem_cons, List.not_mem_nil, or_false,
        hWF.chain_mem]
      constructor
      · rintro ⟨ho, hi⟩
        exact ⟨Or.inl ho, hi⟩
      · rintro ⟨ho | rfl, hi⟩
        · exact ⟨ho, hi⟩
        · exact absurd hi h
  · intro i
    rw [insert_new_getD _ hWF.bucket_len hpos]
    by_cases h : m1.get_bucket_index (k, v).1 = i
    · rw [if_pos h]
      rw [List.map_cons, List.nodup_cons]
      refine ⟨?_, hWF.chain_nodup i⟩
      intro hkc
      rcases List.mem_map.1 hkc with ⟨e, he, hek⟩
      have heo := ((hWF.chain_mem i e).1 he).1
      exact hk (mem_keys.2 ⟨e, heo, hek⟩)
    · rw [if_neg h]
      exact hWF.chain_nodup i

theorem insert_steps {m : LHM} (hWF : WF m) {k : Key} (v : Val)
    (hk : k ∉ keys m) :
    ∃ m1 : LHM,
      m.insert (k, v) = ((INode.entry k, true), LHM.insert_new m1 (k, v)) ∧
      WF m1 ∧ m1.order = m.order ∧ m1.element_count = m.element_count ∧
      m1.hash = m.hash ∧
      m1.bucket_count = (if 4 * (m.element_count + 1) > 3 * m.bucket_count
        then m.bucket_count * 2 else m.bucket_count) ∧
      4 * (m1.element_count + 1) ≤ 3 * m1.bucket_count ∧ k ∉ keys m1 := by
  have hf := find_in_bucket_eq_none hWF hk
  by_cases ht : 4 * (m.element_count + 1) > 3 * m.bucket_count
  · refine ⟨m.rehash (m.bucket_count * 2), ?_, rehash_wf hWF (by omega), rfl,
      rfl, rfl, by simp [ht, rehash_bucket_count], ?_, hk⟩
    · simp [LHM.insert, hf, ht]
    · have h1 := hWF.load_inv
      have h2 := hWF.two_le_bc
      rw [rehash_element_count, rehash_bucket_count]
      omega
  · exact ⟨m, by simp [LHM.insert, hf, ht], hWF, rfl, rfl, rfl, by simp [ht],
      by omega, hk⟩

theorem insert_spec_new {m : LHM} (hWF : WF m) {k : Key} (v : Val)
    (hk : k ∉ keys m) :
    (m.insert (k, v)).1 = (INode.entry k, true) ∧
    ((m.insert (k, v)).2).order = m.order ++ [(k, v)] ∧
    ((m.insert (k, v)).2).element_count = m.element_count + 1 ∧
    ((m.insert (k, v)).2).hash = m.hash ∧
    ((m.insert (k, v)).2).bucket_count =
      (if 4 * (m.element_count + 1) > 3 * m.bucket_count
        then m.bucket_count * 2 else m.bucket_count) ∧
    WF ((m.insert (k, v)).2) ∧
    (k, v) ∈ ((m.insert (k, v)).2).buckets.getD
      (m.hash k % ((m.insert (k, v)).2).bucket_count) [] := by
  obtain ⟨m1, heq, hWF1, hor, hec, hh, hbc, hload, hk1⟩ := insert_steps hWF v hk
  rw [heq]
  have hpos1 : 0 < m1.bucket_count := by have := hWF1.two_le_bc; omega
  refine ⟨rfl, ?_, ?_, ?_, ?_, insert_new_wf hWF1 hk1 hload, ?_⟩
  · rw [insert_new_order, hor]
  · rw [insert_new_element_count, hec]
  · rw [insert_new_hash, hh]
  · rw [insert_new_bucket_count, hbc]
  · rw [insert_new_getD _ hWF1.bucket_len hpos1]
    have hi : m1.get_bucket_index (k, v).1 =
        m.hash k % (LHM.insert_new m1 (k, v)).bucket_count := by
      rw [insert_new_bucket_count, LHM.get_bucket_index, hh]
    rw [if_pos hi]
    exact List.mem_cons_self _ _

theorem keys_insert_not_mem {m : LHM} (hWF : WF m) {k : Key} (v : Val)
    (hk : k ∉ keys m) : keys ((m.insert (k, v)).2) = keys m ++ [k] := by
  have h := (insert_spec_new hWF v hk).2.1
  simp [keys, h]

theorem wf_insert {m : LHM} (hWF : WF m) (e : Entry) : WF ((m.insert e).2) := by
  by_cases hk : e.1 ∈ keys m
  · obtain ⟨e', he', hek⟩ := mem_keys.1 hk
    have h := insert_of_mem hWF he' e.2
    rw [hek, Prod.mk.eta] at h
    rw [h]
    exact hWF
  · have h := (insert_spec_new hWF e.2 hk).2.2.2.2.2.1
    rwa [Prod.mk.eta] at h

/-! ### `erase` -/

theorem erase_result_order (m : LHM) (k : Key) :
    (m.erase_result k).order = LHM.remove_entry k m.order := rfl

theorem erase_result_bucket_count (m : LHM) (k : Key) :
    (m.erase_result k).bucket_count = m.bucket_count := rfl

theorem erase_result_element_count (m : LHM) (k : Key) :
    (m.erase_result k).element_count = m.element_count - 1 := rfl

theorem erase_result_hash (m : LHM) (k : Key) :
    (m.erase_result k).hash = m.hash := rfl

theorem erase_eq_ok (m : LHM) (k : Key) :
    m.erase true (INode.entry k) = .ok (m.erase_result k) := rfl

theorem erase_result_getD (m : LHM) (hlen : m.buckets.length = m.bucket_count)
    (hpos : 0 < m.bucket_count) (k : Key) (i : Nat) :
    (m.erase_result k).buckets.getD i [] =
      if m.get_bucket_index k = i
      then LHM.remove_entry k (m.buckets.getD i [])
      else m.buckets.getD i [] := by
  simp only [LHM.erase_result]
  by_cases h : m.get_bucket_index k = i
  · rw [if_pos h]
    subst h
    exact getD_set_eq _ _ _ _ (by rw [hlen]; exact Nat.mod_lt _ hpos)
  · rw [if_neg h]
    exact getD_set_ne _ _ _ h

theorem keys_erase_result (m : LHM) (k : Key) :
    keys (m.erase_result k) = (LHM.remove_entry k m.order).map Prod.fst := rfl

theorem not_mem_keys_erase_result {m : LHM} (hWF : WF m) (k : Key) :
    k ∉ keys (m.erase_result k) := by
  rw [keys_erase_result]
  exact not_key_mem_remove_entry hWF.keys_nodup

theorem erase_result_wf {m : LHM} (hWF : WF m) {k : Key} (hk : k ∈ keys m) :
    WF (m.erase_result k) := by
  have hpos : 0 < m.bucket_count := by have := hWF.two_le_bc; omega
  have hkm : k ∈ m.order.map Prod.fst := hk
  refine ⟨hWF.two_le_bc, ?_, ?_, ?_, ?_, ?_, ?_⟩
  · simp [LHM.erase_result, List.length_set, hWF.bucket_len]
  · rw [erase_result_element_count, erase_result_order]
    have h1 := length_remove_entry hkm
    have h2 := hWF.count_eq
    omega
  · rw [keys_erase_result]
    exact List.Nodup.sublist ((remove_entry_sublist k m.order).map Prod.fst)
      hWF.keys_nodup
  · rw [erase_result_element_count, erase_result_bucket_count]
    have := hWF.load_inv
    omega
  · intro i e
    rw [erase_result_getD m hWF.bucket_len hpos, erase_result_order]
    have hh : (m.erase_result k).hash = m.hash := rfl
    have hbc : (m.erase_result k).bucket_count = m.bucket_count := rfl
    rw [hh, hbc]
    by_cases h : m.get_bucket_index k = i
    · rw [if_pos h, mem_remove_entry (hWF.chain_nodup i), hWF.chain_mem,
        mem_remove_entry hWF.keys_nodup]
      tauto
    · rw [if_neg h, hWF.chain_mem, mem_remove_entry hWF.keys_nodup]
      constructor
      · rintro ⟨ho, hi⟩
        refine ⟨⟨ho, fun hek => h ?_⟩, hi⟩
        rw [LHM.get_bucket_index, ← hek]
        exact hi
      · rintro ⟨⟨ho, _⟩, hi⟩
        exact ⟨ho, hi⟩
  · intro i
    rw [erase_result_getD m hWF.bucket_len hpos]
    by_cases h : m.get_bucket_index k = i
    · rw [if_pos h]
      exact List.Nodup.sublist
        ((remove_entry_sublist k (m.buckets.getD i [])).map Prod.fst)
        (hWF.chain_nodup i)
    · rw [if_neg h]
      exact hWF.chain_nodup i

/-! ### `clear` and the default constructor -/

theorem clear_wf {m : LHM} (hWF : WF m) : WF m.clear := by
  refine ⟨hWF.two_le_bc, ?_, rfl, by simp [keys, LHM.clear], ?_, ?_, ?_⟩
  · simp [LHM.clear]
  · have := hWF.two_le_bc
    simp only [LHM.clear]
    omega
  · intro i e
    simp [LHM.clear, getD_replicate]
  · intro i
    simp [LHM.clear, getD_replicate]

theorem wf_mkEmpty (hash : Key → Nat) : WF (mkEmpty hash) := by
  refine ⟨?_, ?_, rfl, ?_, ?_, ?_, ?_⟩
  · norm_num [mkEmpty, INITIAL_BUCKET_COUNT]
  · simp [mkEmpty, INITIAL_BUCKET_COUNT]
  · simp [keys, mkEmpty]
  · simp [mkEmpty]
  · intro i e
    simp [mkEmpty, getD_replicate]
  · intro i
    simp [mkEmpty, getD_replicate]

/-! ### Observers: `at`, `count`, `find`, `operator[]` -/

theorem at_of_mem {m : LHM} (hWF : WF m) {e : Entry} (he : e ∈ m.order) :
    m.at_ e.1 = .ok e.2 := by
  simp [LHM.at_, find_in_bucket_eq_some hWF he]

theorem at_of_not_mem {m : LHM} (hWF : WF m) {k : Key} (hk : k ∉ keys m) :
    m.at_ k = .error .index_out_of_bound := by
  simp [LHM.at_, find_in_bucket_eq_none hWF hk]

theorem at_error_iff {m : LHM} (hWF : WF m) (k : Key) :
    m.at_ k = .error .index_out_of_bound ↔ k ∉ keys m := by
  constructor
  · intro h hk
    obtain ⟨e, he, hek⟩ := mem_keys.1 hk
    have h2 := at_of_mem hWF he
    rw [hek, h] at h2
    exact Except.noConfusion h2
  · exact at_of_not_mem hWF

theorem count_of_mem {m : LHM} (hWF : WF m) {k : Key} (hk : k ∈ keys m) :
    m.count k = 1 := by
  obtain ⟨e, he, hek⟩ := mem_keys.1 hk
  have h := find_in_bucket_eq_some hWF he
  rw [hek] at h
  simp [LHM.count, h]

theorem count_of_not_mem {m : LHM} (hWF : WF m) {k : Key} (hk : k ∉ keys m) :
    m.count k = 0 := by
  simp [LHM.count, find_in_bucket_eq_none hWF hk]

theorem find_of_mem {m : LHM} (hWF : WF m) {k : Key} (hk : k ∈ keys m) :
    m.find k = INode.entry k := by
  obtain ⟨e, he, hek⟩ := mem_keys.1 hk
  have h := find_in_bucket_eq_some hWF he
  rw [hek] at h
  simp [LHM.find, h, hek]

theorem find_of_not_mem {m : LHM} (hWF : WF m) {k : Key} (hk : k ∉ keys m) :
    m.find k = INode.tail := by
  simp [LHM.find, find_in_bucket_eq_none hWF hk]

theorem subscript_of_mem {m : LHM} (hWF : WF m) {e : Entry} (he : e ∈ m.order) :
    m.subscript e.1 = (some e.2, m) := by
  simp [LHM.subscript, find_in_bucket_eq_some hWF he]

/-! ### Bucket growth under single operations -/

theorem bucket_count_le_insert (m : LHM) (e : Entry) :
    m.bucket_count ≤ ((m.insert e).2).bucket_count := by
  simp only [LHM.insert]
  cases h : m.find_in_bucket e.1 (m.get_bucket_index e.1) with
  | some ex => simp
  | none =>
    by_cases ht : 4 * (m.element_count + 1) > 3 * m.bucket_count
    · simp only [ht, if_pos, insert_new_bucket_count, rehash_bucket_count]
      omega
    · simp [ht, insert_new_bucket_count]

theorem bucket_count_le_applyOp (m : LHM) (op : Op) :
    m.bucket_count ≤ (applyOp m op).bucket_count := by
  cases op with
  | insertOp k v => exact bucket_count_le_insert m (k, v)
  | eraseOp owned n =>
    cases owned with
    | false => simp [applyOp, LHM.erase]
    | true =>
      cases n with
      | head => simp [applyOp, LHM.erase]
      | tail => simp [applyOp, LHM.erase]
      | entry k => simp [applyOp, LHM.erase, erase_result_bucket_count]
  | clearOp => exact le_of_eq rfl
  | subscrOp k =>
    simp only [applyOp, LHM.subscript]
    cases h : m.find_in_bucket k (m.get_bucket_index k) with
    | some e => simp
    | none => exact bucket_count_le_insert m (k, 0)
  | atOp k => exact le_refl _
  | findOp k => exact le_refl _
  | countOp k => exact le_refl _

/-! ### `deep_copy` -/

theorem deep_copy_loop :
    ∀ (l : List Entry) (t : LHM), WF t →
      (keys t ++ l.map Prod.fst).Nodup →
      4 * (t.order.length + l.length) ≤ 3 * t.bucket_count →
      (l.foldl (fun acc e => (acc.insert e).2) t).order = t.order ++ l ∧
      (l.foldl (fun acc e => (acc.insert e).2) t).bucket_count =
        t.bucket_count ∧
      (l.foldl (fun acc e => (acc.insert e).2) t).element_count =
        t.element_count + l.length ∧
      (l.foldl (fun acc e => (acc.insert e).2) t).hash = t.hash ∧
      WF (l.foldl (fun acc e => (acc.insert e).2) t) := by
  intro l
  induction l with
  | nil =>
    intro t hWF _ _
    exact ⟨by simp, rfl, by simp, rfl, hWF⟩
  | cons e rest ih =>
    intro t hWF hnd hload
    have hek : e.1 ∉ keys t := by
      intro hmem
      rw [List.nodup_append] at hnd
      exact hnd.2.2 hmem (by simp)
    have hcount := hWF.count_eq
    have hload1 : ¬ (4 * (t.element_count + 1) > 3 * t.bucket_count) := by
      simp only [List.length_cons] at hload
      omega
    have hspec := insert_spec_new hWF e.2 hek
    rw [Prod.mk.eta] at hspec
    obtain ⟨_, hor, hec, hh, hbc, hwf2, _⟩ := hspec
    rw [if_neg hload1] at hbc
    rw [List.foldl_cons]
    have hkeys2 : keys ((t.insert e).2) = keys t ++ [e.1] := by
      have h := keys_insert_not_mem hWF e.2 hek
      rwa [Prod.mk.eta] at h
    have hnd2 : (keys ((t.insert e).2) ++ rest.map Prod.fst).Nodup := by
      rw [hkeys2, List.append_assoc]
      simpa using hnd
    have hload2 : 4 * (((t.insert e).2).order.length + rest.length) ≤
        3 * ((t.insert e).2).bucket_count := by
      rw [hor, hbc]
      simp only [List.length_append, List.length_singleton]
      simp only [List.length_cons] at hload
      omega
    obtain ⟨h1, h2, h3, h4, h5⟩ := ih _ hwf2 hnd2 hload2
    refine ⟨?_, ?_, ?_, ?_, h5⟩
    · rw [h1, hor, List.append_assoc]
      rfl
    · rw [h2, hbc]
    · rw [h3, hec, List.length_cons]
      omega
    · rw [h4, hh]

theorem deep_copy_init_order (other : LHM) :
    (LHM.deep_copy_init other).order = [] := rfl

theorem deep_copy_init_bucket_count (other : LHM) :
    (LHM.deep_copy_init other).bucket_count = other.bucket_count := rfl

theorem deep_copy_init_element_count (other : LHM) :
    (LHM.deep_copy_init other).element_count = 0 := rfl

theorem deep_copy_init_hash (other : LHM) :
    (LHM.deep_copy_init other).hash = other.hash := rfl

theorem deep_copy_spec {other : LHM} (hWF : WF other) :
    (LHM.deep_copy other).order = other.order ∧
    (LHM.deep_copy other).bucket_count = other.bucket_count ∧
    (LHM.deep_copy other).element_count = other.element_count ∧
    (LHM.deep_copy other).hash = other.hash ∧
    WF (LHM.deep_copy other) := by
  have hWFt : WF (LHM.deep_copy_init other) := by
    refine ⟨hWF.two_le_bc, by simp [LHM.deep_copy_init], rfl,
      by simp [keys, LHM.deep_copy_init], by simp [LHM.deep_copy_init], ?_, ?_⟩
    · intro i e
      simp [LHM.deep_copy_init, getD_replicate]
    · intro i
      simp [LHM.deep_copy_init, getD_replicate]
  have h := deep_copy_loop other.order _ hWFt
    (by simpa [keys, LHM.deep_copy_init] using hWF.keys_nodup)
    (by have h1 := hWF.load_inv
        have h2 := hWF.count_eq
        simp only [deep_copy_init_order, deep_copy_init_bucket_count,
          List.length_nil]
        omega)
  obtain ⟨h1, h2, h3, h4, h5⟩ := h
  refine ⟨?_, ?_, ?_, ?_, ?_⟩
  · rw [LHM.deep_copy, h1, deep_copy_init_order]
    rfl
  · rw [LHM.deep_copy, h2, deep_copy_init_bucket_count]
  · rw [LHM.deep_copy, h3, deep_copy_init_element_count, hWF.count_eq]
    omega
  · rw [LHM.deep_copy, h4, deep_copy_init_hash]
  · rw [LHM.deep_copy]
    exact h5

/-! ### Running operation sequences -/

theorem runOps_cons (m : LHM) (op : Op) (rest : List Op) :
    runOps m (op :: rest) = runOps (applyOp m op) rest := rfl

theorem run_good_ops :
    ∀ (ops : List Op) (m : LHM), WF m → goodSeq (keys m) ops = true →
      keys (runOps m ops) = keys m ++ insertedKeys ops ∧ WF (runOps m ops) := by
  intro ops
  induction ops with
  | nil =>
    intro m hWF _
    exact ⟨by simp [runOps, insertedKeys], hWF⟩
  | cons op rest ih =>
    intro m hWF hg
    cases op with
    | insertOp k v =>
      simp only [goodSeq, Bool.and_eq_true, Bool.not_eq_true',
        decide_eq_false_iff_not] at hg
      obtain ⟨hkm, hrest⟩ := hg
      have hkeys := keys_insert_not_mem hWF v hkm
      have hwf2 := wf_insert hWF (k, v)
      have hg2 : goodSeq (keys ((m.insert (k, v)).2)) rest = true := by
        rw [hkeys]
        exact hrest
      obtain ⟨h1, h2⟩ := ih _ hwf2 hg2
      refine ⟨?_, h2⟩
      rw [runOps_cons]
      have happ : applyOp m (Op.insertOp k v) = (m.insert (k, v)).2 := rfl
      rw [happ, h1, hkeys, List.append_assoc]
      rfl
    | subscrOp k =>
      simp only [goodSeq, Bool.and_eq_true, decide_eq_true_eq] at hg
      obtain ⟨hkm, hrest⟩ := hg
      obtain ⟨e, he, hek⟩ := mem_keys.1 hkm
      have hsub : (m.subscript k).2 = m := by
        have h := subscript_of_mem hWF he
        rw [hek] at h
        rw [h]
      have happ : applyOp m (Op.subscrOp k) = m := hsub
      rw [runOps_cons, happ]
      obtain ⟨h1, h2⟩ := ih m hWF hrest
      exact ⟨h1, h2⟩
    | atOp k =>
      rw [runOps_cons]
      exact ih m hWF hg
    | findOp k =>
      rw [runOps_cons]
      exact ih m hWF hg
    | countOp k =>
      rw [runOps_cons]
      exact ih m hWF hg
    | eraseOp owned n => simp [goodSeq] at hg
    | clearOp => simp [goodSeq] at hg

theorem wf_runOps_mkEmpty (hash : Key → Nat) (ops : List Op)
    (hg : goodSeq (keys (mkEmpty hash)) ops = true) :
    WF (runOps (mkEmpty hash) ops) :=
  (run_good_ops ops (mkEmpty hash) (wf_mkEmpty hash) hg).2

theorem wf_twoMap : WF twoMap :=
  wf_insert (wf_insert (wf_mkEmpty id) (1, 10)) (2, 20)

theorem wf_twelveMap : WF twelveMap :=
  wf_runOps_mkEmpty id twelveOps (by decide)

/-! ## The claims -/

/-- C1: starting from a fresh container, for every sequence of insertions
of pairwise-distinct keys, with any interleaved lookups via `at`, `find`,
`count`, or mutable `operator[]` on present keys, the order list — the
sequence iteration walks from begin to end — holds exactly the inserted
keys in insertion order, and its length is exactly `element_count`. -/
theorem C1_order_preservation (hash : Key → Nat) (ops : List Op)
    (hg : goodSeq [] ops = true) :
    keys (runOps (mkEmpty hash) ops) = insertedKeys ops ∧
    (runOps (mkEmpty hash) ops).element_count = (insertedKeys ops).length := by
  obtain ⟨h1, h2⟩ := run_good_ops ops (mkEmpty hash) (wf_mkEmpty hash) hg
  constructor
  · rw [h1]
    rfl
  · have hl : (runOps (mkEmpty hash) ops).order.length =
        (insertedKeys ops).length := by
      have hc := congrArg List.length h1
      simpa [keys, mkEmpty] using hc
    rw [h2.count_eq, hl]

theorem C1_order_preservation_witness :
    goodSeq [] c1ops = true ∧
    (keys (runOps (mkEmpty id) c1ops) = insertedKeys c1ops ∧
     (runOps (mkEmpty id) c1ops).element_count = (insertedKeys c1ops).length) :=
  ⟨by decide, C1_order_preservation id c1ops (by decide)⟩

/-- C2: inserting an already-present key changes nothing — the container
state (order list, chains, counts, values) is returned untouched together
with the existing node and `false` — while erasing the key and inserting
it again splices the key at the current order-list tail, after all
surviving entries, not at its original position. -/
theorem C2_reinsertion (m : LHM) (hWF : WF m) (e : Entry) (he : e ∈ m.order)
    (v' w : Val) :
    m.insert (e.1, v') = ((INode.entry e.1, false), m) ∧
    m.erase true (INode.entry e.1) = .ok (m.erase_result e.1) ∧
    ((m.erase_result e.1).insert (e.1, w)).2.order =
      LHM.remove_entry e.1 m.order ++ [(e.1, w)] := by
  refine ⟨insert_of_mem hWF he v', erase_eq_ok m e.1, ?_⟩
  have hk : e.1 ∈ keys m := mem_keys.2 ⟨e, he, rfl⟩
  have hWF2 := erase_result_wf hWF hk
  have hk2 := not_mem_keys_erase_result hWF e.1
  have h := (insert_spec_new hWF2 w hk2).2.1
  rw [h, erase_result_order]

theorem C2_reinsertion_witness :
    (1, 10) ∈ twoMap.order ∧
    (twoMap.insert (1, 99) = ((INode.entry 1, false), twoMap) ∧
     twoMap.erase true (INode.entry 1) = .ok (twoMap.erase_result 1) ∧
     ((twoMap.erase_result 1).insert (1, 7)).2.order =
       LHM.remove_entry 1 twoMap.order ++ [(1, 7)]) :=
  ⟨by decide, C2_reinsertion twoMap wf_twoMap (1, 10) (by decide) 99 7⟩

/-- C3: immediately after any insertion the load-factor invariant
`element_count ≤ bucket_count × 0.75` (written exactly as
`4 × element_count ≤ 3 × bucket_count`) holds; when inserting a new key
would make `element_count + 1 > bucket_count × 0.75`, the container first
rehashes to exactly double the bucket count, and the new node is filed in
the chain computed with the new bucket count; otherwise the bucket count
is unchanged. -/
theorem C3_load_factor (m : LHM) (hWF : WF m) (k : Key) (v : Val) :
    4 * ((m.insert (k, v)).2).element_count ≤
      3 * ((m.insert (k, v)).2).bucket_count ∧
    (k ∉ keys m → 4 * (m.element_count + 1) > 3 * m.bucket_count →
      ((m.insert (k, v)).2).bucket_count = m.bucket_count * 2 ∧
      (k, v) ∈ ((m.insert (k, v)).2).buckets.getD
        (m.hash k % ((m.insert (k, v)).2).bucket_count) []) ∧
    (k ∉ keys m → ¬ 4 * (m.element_count + 1) > 3 * m.bucket_count →
      ((m.insert (k, v)).2).bucket_count = m.bucket_count) := by
  refine ⟨(wf_insert hWF (k, v)).load_inv, ?_, ?_⟩
  · intro hk ht
    obtain ⟨_, _, _, _, hbc, _, hmem⟩ := insert_spec_new hWF v hk
    exact ⟨by rw [hbc, if_pos ht], hmem⟩
  · intro hk ht
    obtain ⟨_, _, _, _, hbc, _, _⟩ := insert_spec_new hWF v hk
    rw [hbc, if_neg ht]

theorem C3_load_factor_witness :
    (12 ∉ keys twelveMap ∧
     4 * (twelveMap.element_count + 1) > 3 * twelveMap.bucket_count) ∧
    ((twelveMap.insert (12, 5)).2).bucket_count = twelveMap.bucket_count * 2 ∧
    (12, 5) ∈ ((twelveMap.insert (12, 5)).2).buckets.getD
      (twelveMap.hash 12 % ((twelveMap.insert (12, 5)).2).bucket_count) [] :=
  ⟨⟨by decide, by decide⟩,
   (C3_load_factor twelveMap wf_twelveMap 12 5).2.1 (by decide) (by decide)⟩

/-- C4 as stated is false: `bucket_count` can decrease.  Copy assignment
replaces the destination's bucket array by one sized to the source; here
the destination has grown to 32 buckets and is assigned from a fresh
16-bucket container, after which its bucket count is 16 < 32. -/
theorem C4_counterexample :
    (LHM.assign false grownMap (mkEmpty id)).bucket_count <
      grownMap.bucket_count := by
  decide

/-- C4 amended: `bucket_count` never decreases under `insert`, `erase`,
`clear`, `operator[]` and the lookups; copy assignment instead replaces it
with the source's bucket count (for a well-formed source the copy finishes
with exactly that count), which may be smaller than the destination's. -/
theorem C4_bucket_growth_amended :
    (∀ (m : LHM) (op : Op), m.bucket_count ≤ (applyOp m op).bucket_count) ∧
    (∀ tgt src : LHM, WF src →
      (LHM.assign false tgt src).bucket_count = src.bucket_count) := by
  refine ⟨bucket_count_le_applyOp, ?_⟩
  intro tgt src hWF
  have h := (deep_copy_spec hWF).2.1
  simpa [LHM.assign] using h

theorem C4_bucket_growth_amended_witness :
    WF (mkEmpty id) ∧
    (LHM.assign false grownMap (mkEmpty id)).bucket_count =
      (mkEmpty id).bucket_count :=
  ⟨wf_mkEmpty id,
   C4_bucket_growth_amended.2 grownMap (mkEmpty id) (wf_mkEmpty id)⟩

/-- C5: `invalid_iterator` is raised exactly when a cursor is advanced at
the tail sentinel, retreated at `head->next` (the first live entry, or the
tail itself when the container is empty), or `erase` is given a position
not owned by this container or designating the head or tail sentinel;
otherwise advance moves to `order_next` and retreat to `order_prev`
without failing, and every raised error is `invalid_iterator`. -/
theorem C5_invalid_position (m : LHM) (n : INode) (owned : Bool) :
    (m.iter_advance n = .error .invalid_iterator ↔ n = INode.tail) ∧
    (n ≠ INode.tail → m.iter_advance n = .ok (m.order_next n)) ∧
    (m.iter_retreat n = .error .invalid_iterator ↔ n = m.head_next) ∧
    (n ≠ m.head_next → m.iter_retreat n = .ok (m.order_prev n)) ∧
    ((∃ err, m.erase owned n = .error err) ↔
      owned = false ∨ n = INode.head ∨ n = INode.tail) ∧
    (∀ err, m.erase owned n = .error err → err = .invalid_iterator) := by
  refine ⟨?_, ?_, ?_, ?_, ?_, ?_⟩
  · by_cases h : n = INode.tail <;> simp [LHM.iter_advance, h]
  · intro h
    simp [LHM.iter_advance, h]
  · by_cases h : n = m.head_next <;> simp [LHM.iter_retreat, h]
  · intro h
    simp [LHM.iter_retreat, h]
  · constructor
    · rintro ⟨err, herr⟩
      cases owned with
      | false => exact Or.inl rfl
      | true =>
        cases n with
        | head => exact Or.inr (Or.inl rfl)
        | tail => exact Or.inr (Or.inr rfl)
        | entry k =>
          rw [erase_eq_ok] at herr
          exact Except.noConfusion herr
    · rintro (rfl | rfl | rfl)
      · exact ⟨.invalid_iterator, by simp [LHM.erase]⟩
      · exact ⟨.invalid_iterator, by cases owned <;> simp [LHM.erase]⟩
      · exact ⟨.invalid_iterator, by cases owned <;> simp [LHM.erase]⟩
  · intro err herr
    cases owned with
    | false =>
      simp [LHM.erase] at herr
      exact herr.symm
    | true =>
      cases n with
      | head =>
        simp [LHM.erase] at herr
        exact herr.symm
      | tail =>
        simp [LHM.erase] at herr
        exact herr.symm
      | entry k =>
        rw [erase_eq_ok] at herr
        exact Except.noConfusion herr

theorem C5_invalid_position_witness :
    (mkEmpty id).iter_advance INode.tail = .error .invalid_iterator :=
  (C5_invalid_position (mkEmpty id) INode.tail true).1.mpr rfl

/-- C6: `at` (and the read-only subscript, which delegates to `at`)
returns the mapped value of a present key and raises `index_out_of_bound`
exactly when the key is absent; `at` is a pure observer, so the container
is unchanged; the mutating subscript and `insert` are total functions of
type `LHM → ...` with no error outcome, so they can never raise
`index_out_of_bound`. -/
theorem C6_key_not_found (m : LHM) (hWF : WF m) (k : Key) :
    (m.at_ k = .error .index_out_of_bound ↔ k ∉ keys m) ∧
    (∀ v : Val, (k, v) ∈ m.order → m.at_ k = .ok v) ∧
    m.subscript_const k = m.at_ k := by
  refine ⟨at_error_iff hWF k, ?_, rfl⟩
  intro v hv
  exact at_of_mem hWF hv

theorem C6_key_not_found_witness :
    twoMap.at_ 5 = .error .index_out_of_bound :=
  (C6_key_not_found twoMap wf_twoMap 5).1.mpr (by decide)

/-- C7: round trips.  After inserting a fresh key `k` with value `v`,
`at(k)` returns `v`; for a present key `k`, `erase(find(k))` succeeds and
afterwards `count(k)` returns 0 and the size has decreased by exactly
one. -/
theorem C7_round_trip (m : LHM) (hWF : WF m) (k : Key) (v : Val) :
    (k ∉ keys m → ((m.insert (k, v)).2).at_ k = .ok v) ∧
    (k ∈ keys m →
      m.erase true (m.find k) = .ok (m.erase_result k) ∧
      (m.erase_result k).count k = 0 ∧
      (m.erase_result k).element_count + 1 = m.element_count) := by
  constructor
  · intro hk
    obtain ⟨_, hor, _, _, _, hwf2, _⟩ := insert_spec_new hWF v hk
    have hmem : (k, v) ∈ ((m.insert (k, v)).2).order := by
      rw [hor]
      simp
    exact at_of_mem hwf2 hmem
  · intro hk
    have hfind := find_of_mem hWF hk
    have hwf2 := erase_result_wf hWF hk
    have hk2 := not_mem_keys_erase_result hWF k
    refine ⟨by rw [hfind]; exact erase_eq_ok m k,
      count_of_not_mem hwf2 hk2, ?_⟩
    rw [erase_result_element_count]
    have h1 := hWF.count_eq
    obtain ⟨e, he, _⟩ := mem_keys.1 hk
    have h2 := List.length_pos_of_mem he
    omega

theorem C7_round_trip_witness :
    (3 ∉ keys twoMap ∧ ((twoMap.insert (3, 33)).2).at_ 3 = .ok 33) ∧
    (1 ∈ keys twoMap ∧
     (twoMap.erase true (twoMap.find 1) = .ok (twoMap.erase_result 1) ∧
      (twoMap.erase_result 1).count 1 = 0 ∧
      (twoMap.erase_result 1).element_count + 1 = twoMap.element_count)) :=
  ⟨⟨by decide, (C7_round_trip twoMap wf_twoMap 3 33).1 (by decide)⟩,
   ⟨by decide, (C7_round_trip twoMap wf_twoMap 1 0).2 (by decide)⟩⟩

/-- C8: copying a well-formed container yields exactly the source's
entries in the source's insertion order, the source's element count, and
an independent bucket array with the source's bucket count; assignment
over a (cleared) destination is exactly such a deep copy.  Independence of
the copy is inherent to the embedding: the copy is a separate value, so no
operation applied to it can change the source's order, size, or values
(the C++ aliasing hazard is a memory-layout concern outside this model). -/
theorem C8_copy_semantics (src : LHM) (hWF : WF src) (tgt : LHM) :
    (LHM.deep_copy src).order = src.order ∧
    (LHM.deep_copy src).bucket_count = src.bucket_count ∧
    (LHM.deep_copy src).element_count = src.element_count ∧
    WF (LHM.deep_copy src) ∧
    LHM.assign false tgt src = LHM.deep_copy src := by
  obtain ⟨h1, h2, h3, _, h5⟩ := deep_copy_spec hWF
  exact ⟨h1, h2, h3, h5, rfl⟩

theorem C8_copy_semantics_witness :
    WF twoMap ∧
    ((LHM.deep_copy twoMap).order = twoMap.order ∧
     (LHM.deep_copy twoMap).bucket_count = twoMap.bucket_count) :=
  ⟨wf_twoMap,
   ⟨(C8_copy_semantics twoMap wf_twoMap twoMap).1,
    (C8_copy_semantics twoMap wf_twoMap twoMap).2.1⟩⟩

/-- C9: on an empty container `head->next` is the tail sentinel, so the
end position itself satisfies the retreat guard and retreating the end
cursor raises `invalid_iterator`. -/
theorem C9_empty_retreat (m : LHM) (hWF : WF m) (h : m.element_count = 0) :
    m.head_next = INode.tail ∧
    m.iter_retreat INode.tail = .error .invalid_iterator := by
  have hord : m.order = [] := by
    have hc := hWF.count_eq
    rw [h] at hc
    exact List.eq_nil_of_length_eq_zero hc.symm
  have hhn : m.head_next = INode.tail := by
    rw [LHM.head_next, hord]
  exact ⟨hhn, by simp [LHM.iter_retreat, hhn]⟩

theorem C9_empty_retreat_witness :
    (mkEmpty id).element_count = 0 ∧
    (mkEmpty id).iter_retreat INode.tail = .error .invalid_iterator :=
  ⟨rfl, (C9_empty_retreat (mkEmpty id) (wf_mkEmpty id) rfl).2⟩

/-- C10: self-assignment is a no-op.  The assignment operator detects
aliasing (`this != &other`) and skips the clear-and-copy entirely, so the
container — its size, keys, stored values, iteration order, and bucket
count — is unchanged. -/
theorem C10_self_assignment (m : LHM) : LHM.assign true m m = m := rfl

end LinkedHashmap
